import Mathlib

/-!
Shallow embedding of `src/invoice_audit/audit_blockchain.py` (the append-only
audit ledger: Merkle tree construction / proofs, proof-of-work block sealing,
signing, chain growth and persistence), together with theorems settling the
specification claims about it.

Modelling conventions, used throughout:

* The external digest `hashlib.sha256(...).hexdigest()` is not repository
  code; every definition is parametric in the digest function
  `H : String → String`, and concrete evaluations instantiate `H` with the
  collision-free formal digest `freeHash` below (the standard idealisation of
  a cryptographic hash: the code's guarantees presuppose collision freedom).
* Python `float` timestamps are modelled as `Nat`: no claim computes with
  the clock value, it is only carried and serialised.
* The external ECDSA primitives (`cryptography.hazmat`) are idealised as a
  deterministic, message-injective signing function (`ecdsaSign`), which is
  exactly the property the code relies on.
-/

/-- Formal collision-free digest used to instantiate the abstract digest
`H : String → String` on concrete inputs.  It is injective by construction
(the input is framed verbatim), which idealises SHA-256's collision
resistance. -/
def freeHash (s : String) : String := "#" ++ s ++ ";"

/-- Model of the odd-length padding step inside the `while` loops of
`build_merkle_root` (audit_blockchain.py lines 25-26) and `merkle_proof`
(lines 42-43): if the current level has odd length, append a copy of its
last element. -/
def padEven (level : List String) : List String :=
  if level.length % 2 = 1 then
    match level.getLast? with
    | some x => level ++ [x]
    | none => level
  else level

/-- Model of the pairing step of the loops (lines 28-31 and 49-52): each
adjacent pair `(level[i], level[i+1])` becomes `H (level[i] ++ level[i+1])`
on the next level.  It is only applied to even-length levels (`padEven` runs
first, exactly as in the source). -/
def pairUp (H : String → String) : List String → List String
  | a :: b :: rest => H (a ++ b) :: pairUp H rest
  | [] => []
  | [_] => []

theorem pairUp_length (H : String → String) (l : List String) :
    (pairUp H l).length = l.length / 2 := by
  match l with
  | [] => rfl
  | [a] => simp [pairUp]
  | a :: b :: rest =>
    simp only [pairUp, List.length_cons]
    rw [pairUp_length H rest]
    omega

theorem padEven_length (l : List String) :
    (padEven l).length = if l.length % 2 = 1 then l.length + 1 else l.length := by
  unfold padEven
  by_cases h : l.length % 2 = 1
  · rw [if_pos h, if_pos h]
    cases hg : l.getLast? with
    | none =>
      rw [List.getLast?_eq_none_iff] at hg
      subst hg
      simp at h
    | some x => simp
  · rw [if_neg h, if_neg h]

theorem pairUp_padEven_length_lt (H : String → String) (l : List String)
    (h : 1 < l.length) : (pairUp H (padEven l)).length < l.length := by
  rw [pairUp_length, padEven_length]
  by_cases hp : l.length % 2 = 1
  · rw [if_pos hp]; omega
  · rw [if_neg hp]; omega

/-- Model of the `while len(level) > 1` loop shared by `build_merkle_root`
(lines 24-31): repeatedly pad to even length and pair adjacent elements
until at most one digest remains.  Terminates because each pass strictly
shrinks the level. -/
def merkleFix (H : String → String) (level : List String) : List String :=
  if h : 1 < level.length then merkleFix H (pairUp H (padEven level)) else level
termination_by level.length
decreasing_by exact pairUp_padEven_length_lt H level h

/-- Model of `build_merkle_root` (lines 19-33): the `"0"` sentinel for an
empty batch, otherwise the single digest the level-folding loop leaves
(`level[0]`). -/
def build_merkle_root (H : String → String) (leaves : List String) : String :=
  if leaves.isEmpty then "0" else (merkleFix H leaves).headD ""

/-- Model of Python's `list.index` (line 38): index of the first occurrence
of `target`.  (`list.index` raises `ValueError` when the target is absent;
the model is only ever applied to members, as in the source's use.) -/
def listIndex (target : String) : List String → Nat
  | [] => 0
  | a :: rest => if a = target then 0 else listIndex target rest + 1

/-- Model of the `while` loop of `merkle_proof` (lines 41-52): at each
level (after padding) record the sibling `level[idx ^ 1]`, halve the index,
and fold the level exactly as `build_merkle_root` does. -/
def merkleProofAux (H : String → String) (idx : Nat) (level : List String) :
    List String :=
  if h : 1 < level.length then
    (padEven level).getD (idx ^^^ 1) "" ::
      merkleProofAux H (idx / 2) (pairUp H (padEven level))
  else []
termination_by level.length
decreasing_by exact pairUp_padEven_length_lt H level h

/-- Model of `merkle_proof` (lines 36-54). -/
def merkle_proof (H : String → String) (leaves : List String)
    (target : String) : List String :=
  merkleProofAux H (listIndex target leaves) leaves

/-- Model of `verify_merkle_proof` (lines 57-61): fold the target through
the proof, always concatenating the accumulator on the left. -/
def verify_merkle_proof (H : String → String) (target : String)
    (proof : List String) (root : String) : Bool :=
  (proof.foldl (fun computed p => H (computed ++ p)) target) == root

/-- Model of the `DIFFICULTY` constant (line 12). -/
def DIFFICULTY : Nat := 4

/-- The proof-of-work target `"0" * DIFFICULTY` (line 106). -/
def difficultyZeros : String := String.mk (List.replicate DIFFICULTY '0')

/-- The proof-of-work predicate of line 109 (Python `h.startswith` on the
difficulty target), modelled at the character-list level. -/
def qualifies (h : String) : Bool := difficultyZeros.data.isPrefixOf h.data

/-- Model of the `AuditBlock` object state after `__init__`
(lines 64-90), fields in assignment order.  `signature` holds the hex form
the constructor stores (`signature.hex()`); `timestamp` is a `Nat` (see the
module comment). -/
structure AuditBlock where
  index : Nat
  event_type : String
  reference_id : String
  actor : String
  data_hash : String
  leaf_hashes : List String
  merkle_root : String
  signature : String
  timestamp : Nat
  previous_hash : String
  nonce : Nat
  hash : String
deriving DecidableEq, Inhabited

/-- The seven logical fields that, together with the nonce, feed
`calculate_hash` (lines 92-103). -/
structure SealFields where
  index : Nat
  event_type : String
  reference_id : String
  actor : String
  merkle_root : String
  timestamp : Nat
  previous_hash : String
deriving DecidableEq

/-- JSON string literal (string escaping inside field values is elided:
all digests and identifiers in play are quote-free). -/
def jsonStr (s : String) : String := "\"" ++ s ++ "\""

/-- Model of `json.dumps(payload, sort_keys=True)` on the payload dict of
`calculate_hash` (lines 93-102): the eight keys serialized in sorted order
with Python's default separators. -/
def payloadJson (f : SealFields) (nonce : Nat) : String :=
  "\x7b\"actor\": " ++ jsonStr f.actor ++
  ", \"event_type\": " ++ jsonStr f.event_type ++
  ", \"index\": " ++ toString f.index ++
  ", \"merkle_root\": " ++ jsonStr f.merkle_root ++
  ", \"nonce\": " ++ toString nonce ++
  ", \"previous_hash\": " ++ jsonStr f.previous_hash ++
  ", \"reference_id\": " ++ jsonStr f.reference_id ++
  ", \"timestamp\": " ++ toString f.timestamp ++ "\x7d"

/-- Hash of the serialized payload at a given nonce: the body of
`calculate_hash` (line 103) as a function of the logical fields. -/
def calcHashF (H : String → String) (f : SealFields) (nonce : Nat) : String :=
  H (payloadJson f nonce)

/-- The logical fields a stored block feeds to `calculate_hash`. -/
def fieldsOfBlock (b : AuditBlock) : SealFields :=
  { index := b.index, event_type := b.event_type,
    reference_id := b.reference_id, actor := b.actor,
    merkle_root := b.merkle_root, timestamp := b.timestamp,
    previous_hash := b.previous_hash }

/-- Model of `AuditBlock.calculate_hash` (lines 92-103). -/
def AuditBlock.calculate_hash (H : String → String) (b : AuditBlock) : String :=
  calcHashF H (fieldsOfBlock b) b.nonce

/-- Model of the `while True` nonce search of `mine_block` (lines 105-111)
with an explicit iteration budget (the Python loop is unbounded; a budget of
one more than the distance to the first qualifying nonce reproduces it
exactly, as proved below).  Returns the found nonce together with the
returned hash; the found nonce is the block's final `self.nonce`. -/
def mineFrom (H : String → String) (f : SealFields) (nonce : Nat) :
    Nat → Option (Nat × String)
  | 0 => none
  | fuel + 1 =>
    let h := calcHashF H f nonce
    if qualifies h then some (nonce, h) else mineFrom H f (nonce + 1) fuel

/-- Specification of a completed `mine_block` run started at `start`:
the loop stops at the first qualifying nonce `n ≥ start`, and the block's
`hash` is `calculate_hash` evaluated there. -/
def MineSpec (H : String → String) (f : SealFields) (start n : Nat) : Prop :=
  start ≤ n ∧ qualifies (calcHashF H f n) = true ∧
    ∀ m, start ≤ m → m < n → qualifies (calcHashF H f m) = false

/-- Model of a persisted block record (one JSON object of `CHAIN_FILE`): a
field is `none` when the key is missing from the record.  `merkle_root` is
written by `to_dict` but never read back by `from_dict` (which recomputes
the root from `leaf_hashes`). -/
structure BlockRecord where
  index : Option Nat
  event_type : Option String
  reference_id : Option String
  actor : Option String
  leaf_hashes : Option (List String)
  merkle_root : Option String
  signature : Option String
  timestamp : Option Nat
  previous_hash : Option String
  nonce : Option Nat
  hash : Option String
deriving DecidableEq

/-- Model of `AuditBlock.to_dict` (lines 113-126): all eleven keys
present. -/
def AuditBlock.to_dict (b : AuditBlock) : BlockRecord :=
  { index := some b.index, event_type := some b.event_type,
    reference_id := some b.reference_id, actor := some b.actor,
    leaf_hashes := some b.leaf_hashes, merkle_root := some b.merkle_root,
    signature := some b.signature, timestamp := some b.timestamp,
    previous_hash := some b.previous_hash, nonce := some b.nonce,
    hash := some b.hash }

/-- Whether `c` is a hexadecimal digit (the characters `bytes.fromhex`
accepts inside a byte pair). -/
def isHexDigit (c : Char) : Bool :=
  (('0' ≤ c) && (c ≤ '9')) || (('a' ≤ c) && (c ≤ 'f')) ||
  (('A' ≤ c) && (c ≤ 'F'))

/-- Whether `bytes.fromhex` accepts `s`: an even number of hex digits.
(Python additionally skips ASCII spaces between byte pairs; signatures
written by `to_dict` come from `bytes.hex()` and never contain spaces, so
the model does not admit them.) -/
def isHexStr (s : String) : Bool :=
  s.data.all isHexDigit && s.data.length % 2 = 0

/-- Lower-casing of a hex string: on valid input this is exactly the
normalisation `bytes.fromhex(s).hex()` performs. -/
def hexCanon (s : String) : String := String.mk (s.data.map Char.toLower)

/-- Model of `bytes.fromhex(s).hex()` (the decode `from_dict` performs at
line 137 composed with the `.hex()` re-encode the constructor performs at
line 86): `none` is the uncaught `ValueError` on a non-hex string. -/
def fromHexRoundTrip (s : String) : Option String :=
  if isHexStr s then some (hexCanon s) else none

/-- Model of `AuditBlock.from_dict` (lines 128-142): each required key is
read (a missing key raises `KeyError`, modelled by `none` propagation) in
the source's keyword-argument order; the signature is hex-decoded at the
`signature=` argument (line 137) — a non-hex string raises `ValueError`,
modelled by `fromHexRoundTrip` — and re-encoded by the constructor.  The
constructor then recomputes `merkle_root` from `leaf_hashes`, sets
`data_hash` to `""`, and stores `block_hash or self.mine_block()`
(line 90): a falsy (empty) stored hash re-enters the unbounded mining
search instead of keeping the record's hash; that divergent re-sealing
path is outside this model and mapped to `none` (no record written by
`to_dict` from a sealed block has an empty hash, and the theorems about
loading exclude it by hypothesis). -/
def from_dict (H : String → String) (d : BlockRecord) : Option AuditBlock :=
  d.index.bind fun index =>
  d.event_type.bind fun event_type =>
  d.reference_id.bind fun reference_id =>
  d.actor.bind fun actor =>
  d.leaf_hashes.bind fun leaf_hashes =>
  d.signature.bind fun sigRaw =>
  (fromHexRoundTrip sigRaw).bind fun signature =>
  d.timestamp.bind fun timestamp =>
  d.previous_hash.bind fun previous_hash =>
  d.nonce.bind fun nonce =>
  d.hash.bind fun hash =>
  if hash = "" then none else
  some
  { index := index, event_type := event_type, reference_id := reference_id,
    actor := actor, data_hash := "", leaf_hashes := leaf_hashes,
    merkle_root := build_merkle_root H leaf_hashes, signature := signature,
    timestamp := timestamp, previous_hash := previous_hash, nonce := nonce,
    hash := hash }

/-- Whether a persisted record carries every key `from_dict` reads
(`merkle_root` is not among them). -/
def recComplete (d : BlockRecord) : Bool :=
  d.index.isSome && d.event_type.isSome && d.reference_id.isSome &&
  d.actor.isSome && d.leaf_hashes.isSome && d.signature.isSome &&
  d.timestamp.isSome && d.previous_hash.isSome && d.nonce.isSome &&
  d.hash.isSome

/-- Whether the record's signature, when present, is a string
`bytes.fromhex` accepts (vacuously true when the key is missing — the
`KeyError` fires first in that case). -/
def sigHexOk (d : BlockRecord) : Bool :=
  match d.signature with
  | some s => isHexStr s
  | none => true

/-- Model of `_load_chain` (lines 215-218): rebuild each block in order;
the first failing record aborts the whole load (an uncaught exception
propagates out of the list comprehension and fails the constructor). -/
def load_chain (H : String → String) : List BlockRecord → Option (List AuditBlock)
  | [] => some []
  | r :: rest =>
    (from_dict H r).bind fun b => (load_chain H rest).map fun bs => b :: bs

/-- Idealised model of ECDSA signing with the ledger key pair
(`private_key.sign` at lines 179-182): deterministic and injective in the
message, which is the property `cryptography`'s ECDSA gives an honest
verifier.  The key pair is modelled by a shared `Nat` identifier. -/
def ecdsaSign (key : Nat) (msg : String) : String :=
  "ecdsa:" ++ toString key ++ ":" ++ msg

/-- Idealised model of `public_key.verify` (lines 202-206): `true` exactly
when the signature is the key holder's signature of the message.  The
`InvalidSignature` exception the library raises is the `false` branch
(caught at lines 208-209). -/
def ecdsaVerifyOk (key : Nat) (sig msg : String) : Bool :=
  sig == ecdsaSign key msg

/-- Model of `AuditBlockchain.verify_signature` (lines 200-209): check the
block's stored signature against `leaf_hashes[0]`, returning a boolean.
(`leaf_hashes[0]` is modelled by `headD`; every block built by the code has
a non-empty `leaf_hashes`.) -/
def verify_signature (key : Nat) (b : AuditBlock) : Bool :=
  ecdsaVerifyOk key b.signature (b.leaf_hashes.headD "")

/-- Model of `self.chain[-1].hash` (line 192); the chain is never empty
when it is read. -/
def lastHash (chain : List AuditBlock) : String :=
  match chain.getLast? with
  | some b => b.hash
  | none => ""

/-- Logical fields of the genesis block (lines 156-167). -/
def genesisFields (H : String → String) (ts : Nat) : SealFields :=
  { index := 0, event_type := "GENESIS", reference_id := "SYSTEM",
    actor := "SYSTEM", merkle_root := build_merkle_root H ["0"],
    timestamp := ts, previous_hash := "0" }

/-- The genesis block produced by `_create_genesis_block` (lines 156-167)
when mining stopped at nonce `n`: `signature` is `b"".hex() = ""`, and the
block's `hash` is `calculate_hash` at the final nonce. -/
def genesisBlock (H : String → String) (ts n : Nat) : AuditBlock :=
  { index := 0, event_type := "GENESIS", reference_id := "SYSTEM",
    actor := "SYSTEM", data_hash := "0", leaf_hashes := ["0"],
    merkle_root := build_merkle_root H ["0"], signature := "",
    timestamp := ts, previous_hash := "0", nonce := n,
    hash := calcHashF H (genesisFields H ts) n }

/-- Logical fields of the block `add_event` builds (lines 184-194) on top
of `chain` for a payload whose canonical JSON form is `p`. -/
def eventFields (H : String → String) (chain : List AuditBlock)
    (evt ref actor p : String) (ts : Nat) : SealFields :=
  { index := chain.length, event_type := evt, reference_id := ref,
    actor := actor, merkle_root := build_merkle_root H [H p],
    timestamp := ts, previous_hash := lastHash chain }

/-- The block `add_event` (lines 171-198) appends, given the canonical
payload string `p` (so `data_hash = H p`, as at line 178), when mining
stopped at nonce `n`. -/
def eventBlock (H : String → String) (key : Nat) (chain : List AuditBlock)
    (evt ref actor p : String) (ts n : Nat) : AuditBlock :=
  { index := chain.length, event_type := evt, reference_id := ref,
    actor := actor, data_hash := H p, leaf_hashes := [H p],
    merkle_root := build_merkle_root H [H p],
    signature := ecdsaSign key (H p), timestamp := ts,
    previous_hash := lastHash chain, nonce := n,
    hash := calcHashF H (eventFields H chain evt ref actor p ts) n }

/-- Chain states reachable through the code's two mutators: genesis
creation (`_create_genesis_block`) followed by any sequence of `add_event`
calls.  Each sealing is recorded by its `MineSpec` certificate: the search
started at the constructor's default nonce 0 and stopped at `n`. -/
inductive Reachable (H : String → String) (key : Nat) :
    List AuditBlock → Prop
  | genesis (ts n : Nat) (hm : MineSpec H (genesisFields H ts) 0 n) :
      Reachable H key [genesisBlock H ts n]
  | add_event (chain : List AuditBlock) (evt ref actor p : String)
      (ts n : Nat) (hc : Reachable H key chain)
      (hm : MineSpec H (eventFields H chain evt ref actor p ts) 0 n) :
      Reachable H key (chain ++ [eventBlock H key chain evt ref actor p ts n])

/-- Model of the tail of `add_event` (lines 196-198): the block is appended
to the in-memory chain and then `_persist` runs; `persistOk` records
whether the durable write succeeds.  The result is the final in-memory
chain paired with the call's outcome (`ok` returns the block, `error` is
the propagated write exception).  The source has no rollback: the appended
chain is the final state in both branches. -/
def add_event_step (chain : List AuditBlock) (b : AuditBlock)
    (persistOk : Bool) : List AuditBlock × Except Unit AuditBlock :=
  (chain ++ [b], if persistOk then Except.ok b else Except.error ())

theorem merkleFix_step (H : String → String) (level : List String)
    (h : 1 < level.length) :
    merkleFix H level = merkleFix H (pairUp H (padEven level)) := by
  rw [merkleFix.eq_def]
  rw [dif_pos h]

theorem merkleFix_stop (H : String → String) (level : List String)
    (h : ¬ 1 < level.length) : merkleFix H level = level := by
  rw [merkleFix.eq_def]
  rw [dif_neg h]

theorem padEven_eq_append (l : List String) :
    ∃ r : List String, padEven l = l ++ r := by
  unfold padEven
  by_cases h : l.length % 2 = 1
  · rw [if_pos h]
    cases hg : l.getLast? with
    | none => exact ⟨[], by simp⟩
    | some x => exact ⟨[x], rfl⟩
  · rw [if_neg h]
    exact ⟨[], by simp⟩

theorem proofAux_zero_fold_aux (H : String → String) (n : Nat) :
    ∀ level : List String, level.length ≤ n → level ≠ [] →
    (merkleProofAux H 0 level).foldl (fun c p => H (c ++ p)) (level.headD "")
      = (merkleFix H level).headD "" := by
  induction n with
  | zero =>
    intro level hlen hne
    cases level with
    | nil => exact absurd rfl hne
    | cons a t => simp at hlen
  | succ n ih =>
    intro level hlen hne
    by_cases h : 1 < level.length
    · obtain ⟨x, y, t, rfl⟩ : ∃ x y t, level = x :: y :: t := by
        match level, h with
        | x :: y :: t, _ => exact ⟨x, y, t, rfl⟩
      obtain ⟨r, hpad⟩ := padEven_eq_append (x :: y :: t)
      unfold merkleProofAux merkleFix
      rw [dif_pos h, dif_pos h]
      have h01 : (0 : Nat) ^^^ 1 = 1 := by decide
      have h02 : (0 : Nat) / 2 = 0 := by decide
      rw [h01, h02, hpad]
      simp only [pairUp, List.foldl_cons, List.getD_cons_succ,
        List.getD_cons_zero, List.headD_cons]
      have hlt := pairUp_padEven_length_lt H (x :: y :: t) h
      rw [hpad] at hlt
      simp only [pairUp] at hlt
      have hrec := ih (H (x ++ y) :: pairUp H (t ++ r))
        (by simp at hlt hlen ⊢; omega) (by simp)
      simp only [List.headD_cons] at hrec
      exact hrec
    · unfold merkleProofAux merkleFix
      rw [dif_neg h, dif_neg h]
      rfl

theorem proofAux_zero_fold (H : String → String) (level : List String)
    (hne : level ≠ []) :
    (merkleProofAux H 0 level).foldl (fun c p => H (c ++ p)) (level.headD "")
      = (merkleFix H level).headD "" :=
  proofAux_zero_fold_aux H level.length level (Nat.le_refl _) hne

/-- C1 counterexample: the claimed round-trip fails already for the second
leaf of the two-leaf batch `["a", "b"]` (distinct digests, target a member):
the proof records the left sibling `"a"`, but `verify_merkle_proof` folds it
on the right of the accumulator, computing `H ("b" ++ "a")` where the root
is `H ("a" ++ "b")`. -/
theorem merkle_round_trip_fails_for_second_leaf :
    ("b" ∈ (["a", "b"] : List String)) ∧
    (["a", "b"] : List String).Nodup ∧
    verify_merkle_proof freeHash "b" (merkle_proof freeHash ["a", "b"] "b")
      (build_merkle_root freeHash ["a", "b"]) = false := by
  refine ⟨by decide, by decide, ?_⟩
  simp [merkle_proof, listIndex, merkleProofAux, padEven, pairUp,
    build_merkle_root, merkleFix, verify_merkle_proof, freeHash]

/-- C1 (amended): a proof generated by `merkle_proof` re-folds to the root
computed by `build_merkle_root` for the first leaf of any non-empty batch
(`verify_merkle_proof`'s left-accumulator concatenation matches the sibling
order only on the all-left path, i.e. leaf index 0). -/
theorem merkle_round_trip_first_leaf (H : String → String)
    (L : List String) (hL : L ≠ []) :
    verify_merkle_proof H (L.headD "") (merkle_proof H L (L.headD ""))
      (build_merkle_root H L) = true := by
  obtain ⟨a, t, rfl⟩ : ∃ a t, L = a :: t := by
    match L, hL with
    | a :: t, _ => exact ⟨a, t, rfl⟩
  have hidx : listIndex ((a :: t).headD "") (a :: t) = 0 := by
    simp [listIndex]
  unfold verify_merkle_proof merkle_proof build_merkle_root
  rw [hidx]
  have hfold := proofAux_zero_fold H (a :: t) (by simp)
  rw [hfold]
  simp

/-- Witness for the amended C1 theorem on the concrete batch
`["a", "b", "c"]`. -/
theorem merkle_round_trip_first_leaf_witness :
    verify_merkle_proof freeHash ((["a", "b", "c"] : List String).headD "")
      (merkle_proof freeHash ["a", "b", "c"]
        ((["a", "b", "c"] : List String).headD ""))
      (build_merkle_root freeHash ["a", "b", "c"]) = true :=
  merkle_round_trip_first_leaf freeHash ["a", "b", "c"] (by decide)

/-- C8: the implicit odd-length duplication of the last leaf gives the same
root as duplicating it explicitly, for any digest function and any three
leaves. -/
theorem merkle_root_odd_padding (H : String → String) (a b c : String) :
    build_merkle_root H [a, b, c] = build_merkle_root H [a, b, c, c] := by
  have h3 : merkleFix H [a, b, c]
      = merkleFix H (pairUp H (padEven [a, b, c])) :=
    merkleFix_step H [a, b, c] (by simp)
  have h4 : merkleFix H [a, b, c, c]
      = merkleFix H (pairUp H (padEven [a, b, c, c])) :=
    merkleFix_step H [a, b, c, c] (by simp)
  have hsame : pairUp H (padEven [a, b, c])
      = pairUp H (padEven [a, b, c, c]) := by
    simp [padEven, pairUp]
  unfold build_merkle_root
  rw [h3, h4, hsame]
  simp

theorem build_merkle_root_singleton (H : String → String) (x : String) :
    build_merkle_root H [x] = x := by
  unfold build_merkle_root
  rw [merkleFix_stop H [x] (by simp)]
  simp

/-- C10: the root of a singleton batch is the leaf unchanged (not its
digest); hence every block `add_event` builds has `merkle_root` equal to its
single payload digest, and the empty-batch sentinel `"0"` coincides with
the root of the singleton batch `["0"]` used by the genesis block. -/
theorem merkle_root_singleton_sentinel (H : String → String) (x : String) :
    build_merkle_root H [x] = x ∧
    build_merkle_root H [] = "0" ∧
    build_merkle_root H ["0"] = build_merkle_root H [] ∧
    (∀ key chain evt ref actor p ts n,
      (eventBlock H key chain evt ref actor p ts n).merkle_root = H p) ∧
    (∀ ts n, (genesisBlock H ts n).merkle_root = "0") := by
  refine ⟨build_merkle_root_singleton H x, rfl, ?_, ?_, ?_⟩
  · rw [build_merkle_root_singleton]
    rfl
  · intro key chain evt ref actor p ts n
    exact build_merkle_root_singleton H (H p)
  · intro ts n
    exact build_merkle_root_singleton H "0"

/-- C9: `calculate_hash` depends only on the eight serialized fields; any
two block states agreeing on them hash identically, whatever their
`signature`, `leaf_hashes`, `data_hash` or stored `hash`. -/
theorem calculate_hash_determined (H : String → String) (b1 b2 : AuditBlock)
    (h1 : b1.index = b2.index) (h2 : b1.event_type = b2.event_type)
    (h3 : b1.reference_id = b2.reference_id) (h4 : b1.actor = b2.actor)
    (h5 : b1.merkle_root = b2.merkle_root) (h6 : b1.timestamp = b2.timestamp)
    (h7 : b1.previous_hash = b2.previous_hash) (h8 : b1.nonce = b2.nonce) :
    AuditBlock.calculate_hash H b1 = AuditBlock.calculate_hash H b2 := by
  unfold AuditBlock.calculate_hash calcHashF fieldsOfBlock payloadJson
  rw [h1, h2, h3, h4, h5, h6, h7, h8]

/-- Two concrete block states agreeing on the eight hashed fields but
differing in `signature`, `leaf_hashes`, `data_hash` and stored `hash`. -/
def sampleBlockA : AuditBlock :=
  { index := 1, event_type := "INVOICE_UPLOADED", reference_id := "INV001",
    actor := "company_a", data_hash := "d1", leaf_hashes := ["d1"],
    merkle_root := "d1", signature := "aa", timestamp := 5,
    previous_hash := "0000p", nonce := 7, hash := "0000h1" }

def sampleBlockB : AuditBlock :=
  { index := 1, event_type := "INVOICE_UPLOADED", reference_id := "INV001",
    actor := "company_a", data_hash := "d2", leaf_hashes := ["d2", "d3"],
    merkle_root := "d1", signature := "bb", timestamp := 5,
    previous_hash := "0000p", nonce := 7, hash := "0000h2" }

/-- Witness for C9: the two sample blocks differ in signature (and leaf
hashes, and stored hash) yet `calculate_hash` agrees. -/
theorem calculate_hash_determined_witness :
    AuditBlock.calculate_hash freeHash sampleBlockA
      = AuditBlock.calculate_hash freeHash sampleBlockB ∧
    sampleBlockA.signature ≠ sampleBlockB.signature ∧
    sampleBlockA.leaf_hashes ≠ sampleBlockB.leaf_hashes ∧
    sampleBlockA.hash ≠ sampleBlockB.hash :=
  ⟨calculate_hash_determined freeHash sampleBlockA sampleBlockB
      rfl rfl rfl rfl rfl rfl rfl rfl,
    by decide, by decide, by decide⟩

/-- A concrete sealed genesis-like block for the persistence-failure
scenario. -/
def sampleGenesis : AuditBlock :=
  { index := 0, event_type := "GENESIS", reference_id := "SYSTEM",
    actor := "SYSTEM", data_hash := "0", leaf_hashes := ["0"],
    merkle_root := "0", signature := "", timestamp := 0,
    previous_hash := "0", nonce := 3, hash := "0000g" }

/-- C4 evaluation at the failing input: when `_persist` fails
(`persistOk = false`), `add_event` raises, yet the in-memory chain has
already been extended by the appended block — it is not the pre-call
chain, contradicting the claimed atomicity (the source appends at line 196
and only then persists at line 197, with no rollback on failure). -/
theorem add_event_no_rollback_on_persist_failure :
    (add_event_step [sampleGenesis] sampleBlockA false).2 = Except.error () ∧
    (add_event_step [sampleGenesis] sampleBlockA false).1
      = [sampleGenesis, sampleBlockA] ∧
    [sampleGenesis, sampleBlockA] ≠ [sampleGenesis] :=
  ⟨rfl, rfl, by decide⟩

theorem strAppend_right_inj (s a b : String) (h : s ++ a = s ++ b) :
    a = b := by
  have hd : s.data ++ a.data = s.data ++ b.data := by
    have := congrArg String.data h
    simpa [String.data_append] using this
  have hab : a.data = b.data := List.append_cancel_left hd
  cases a with
  | mk da =>
    cases b with
    | mk db =>
      simp only at hab
      exact congrArg String.mk hab

/-- C5: under the ledger's key pair, `verify_signature` accepts every block
freshly produced by `add_event`, and rejects (returning `false`, never
raising) the same block once its first leaf hash has been altered in any
way (a bit flip in the stored digest string yields a different string,
captured by `leaf2 ≠ H p`). -/
theorem verify_signature_spec (H : String → String) (key : Nat)
    (chain : List AuditBlock) (evt ref actor p : String) (ts n : Nat) :
    verify_signature key (eventBlock H key chain evt ref actor p ts n) = true ∧
    ∀ leaf2, leaf2 ≠ H p →
      verify_signature key
        { eventBlock H key chain evt ref actor p ts n with
            leaf_hashes := [leaf2] } = false := by
  constructor
  · simp [verify_signature, eventBlock, ecdsaVerifyOk]
  · intro leaf2 hne
    simp only [verify_signature, eventBlock, ecdsaVerifyOk, List.headD_cons]
    rw [beq_eq_false_iff_ne]
    intro heq
    exact hne (strAppend_right_inj _ _ _ heq).symm

/-- Witness for C5 at a concrete chain, payload and key: the fresh block
verifies, the leaf-altered copy does not. -/
theorem verify_signature_spec_witness :
    verify_signature 0 (eventBlock freeHash 0 [] "E" "r" "a" "p" 0 0) = true ∧
    verify_signature 0
      { eventBlock freeHash 0 [] "E" "r" "a" "p" 0 0 with
          leaf_hashes := ["q"] } = false :=
  ⟨(verify_signature_spec freeHash 0 [] "E" "r" "a" "p" 0 0).1,
    (verify_signature_spec freeHash 0 [] "E" "r" "a" "p" 0 0).2 "q"
      (by decide)⟩

theorem mineFrom_sound (H : String → String) (f : SealFields) :
    ∀ (fuel start n : Nat) (h : String),
      mineFrom H f start fuel = some (n, h) →
      start ≤ n ∧ h = calcHashF H f n ∧
      qualifies (calcHashF H f n) = true ∧
      ∀ m, start ≤ m → m < n → qualifies (calcHashF H f m) = false := by
  intro fuel
  induction fuel with
  | zero => intro start n h hsome; simp [mineFrom] at hsome
  | succ fuel ih =>
    intro start n h hsome
    by_cases hq : qualifies (calcHashF H f start) = true
    · simp only [mineFrom, if_pos hq, Option.some.injEq, Prod.mk.injEq]
        at hsome
      obtain ⟨rfl, rfl⟩ := hsome
      exact ⟨Nat.le_refl _, rfl, hq, fun m hm1 hm2 => absurd hm1 (by omega)⟩
    · simp only [mineFrom, if_neg hq] at hsome
      obtain ⟨hle, heq, hqual, hmin⟩ := ih (start + 1) n h hsome
      refine ⟨by omega, heq, hqual, fun m hm1 hm2 => ?_⟩
      by_cases hms : m = start
      · subst hms
        exact Bool.not_eq_true _ ▸ (by simpa using hq)
      · exact hmin m (by omega) hm2

theorem mineFrom_complete (H : String → String) (f : SealFields) :
    ∀ (k start : Nat), qualifies (calcHashF H f (start + k)) = true →
      ∃ n h, mineFrom H f start (k + 1) = some (n, h) := by
  intro k
  induction k with
  | zero =>
    intro start hq
    simp only [Nat.add_zero] at hq
    exact ⟨start, calcHashF H f start, by simp [mineFrom, if_pos hq]⟩
  | succ k ih =>
    intro start hq
    by_cases hq0 : qualifies (calcHashF H f start) = true
    · exact ⟨start, calcHashF H f start, by simp [mineFrom, if_pos hq0]⟩
    · obtain ⟨n, h, hsome⟩ := ih (start + 1) (by
        have : start + 1 + k = start + (k + 1) := by omega
        rw [this]
        exact hq)
      exact ⟨n, h, by simp [mineFrom, if_neg hq0]; exact hsome⟩

/-- C3: under the precondition that some nonce at or beyond the starting
one qualifies, the `mine_block` search terminates (some iteration budget
suffices), returning `calculate_hash` evaluated at the smallest qualifying
nonce `≥ start`; that hash satisfies the difficulty predicate, and any
successful run from the same logical fields and starting nonce returns the
same nonce and hash. -/
theorem mine_block_spec (H : String → String) (f : SealFields) (start : Nat)
    (hex : ∃ n, start ≤ n ∧ qualifies (calcHashF H f n) = true) :
    ∃ fuel n,
      mineFrom H f start fuel = some (n, calcHashF H f n) ∧
      start ≤ n ∧ qualifies (calcHashF H f n) = true ∧
      (∀ m, start ≤ m → m < n → qualifies (calcHashF H f m) = false) ∧
      MineSpec H f start n ∧
      ∀ fuel2 n2 h2, mineFrom H f start fuel2 = some (n2, h2) →
        n2 = n ∧ h2 = calcHashF H f n := by
  obtain ⟨n0, hle, hq⟩ := hex
  have hk : start + (n0 - start) = n0 := by omega
  obtain ⟨n, h, hsome⟩ := mineFrom_complete H f (n0 - start) start
    (by rw [hk]; exact hq)
  obtain ⟨hn1, hn2, hn3, hn4⟩ := mineFrom_sound H f _ _ _ _ hsome
  subst hn2
  refine ⟨n0 - start + 1, n, hsome, hn1, hn3, hn4, ⟨hn1, hn3, hn4⟩,
    fun fuel2 n2 h2 hsome2 => ?_⟩
  obtain ⟨hm1, hm2, hm3, hm4⟩ := mineFrom_sound H f _ _ _ _ hsome2
  have hnn : n2 = n := by
    by_contra hne
    rcases Nat.lt_or_ge n2 n with hlt | hge
    · have := hn4 n2 hm1 hlt
      rw [hm3] at this
      exact absurd this (by simp)
    · have hlt2 : n < n2 := by omega
      have := hm4 n hn1 hlt2
      rw [hn3] at this
      exact absurd this (by simp)
  subst hnn
  exact ⟨rfl, hm2⟩

/-- Digest function making the proof-of-work precondition trivially
satisfiable, for concrete witnesses: every digest is the difficulty
target itself. -/
def allZeroHash : String → String := fun _ => "0000"

/-- Witness for C3: with the `allZeroHash` digest and concrete genesis
fields, the precondition holds at nonce 0 and the theorem applies. -/
theorem mine_block_spec_witness :
    (∃ n, 0 ≤ n ∧
      qualifies (calcHashF allZeroHash (genesisFields allZeroHash 0) n) = true) ∧
    ∃ fuel n,
      mineFrom allZeroHash (genesisFields allZeroHash 0) 0 fuel
        = some (n, calcHashF allZeroHash (genesisFields allZeroHash 0) n) ∧
      0 ≤ n ∧
      qualifies (calcHashF allZeroHash (genesisFields allZeroHash 0) n) = true ∧
      (∀ m, 0 ≤ m → m < n →
        qualifies (calcHashF allZeroHash (genesisFields allZeroHash 0) m) = false) ∧
      MineSpec allZeroHash (genesisFields allZeroHash 0) 0 n ∧
      ∀ fuel2 n2 h2,
        mineFrom allZeroHash (genesisFields allZeroHash 0) 0 fuel2
          = some (n2, h2) →
        n2 = n ∧ h2 = calcHashF allZeroHash (genesisFields allZeroHash 0) n :=
  ⟨⟨0, Nat.le_refl 0, by decide⟩,
    mine_block_spec allZeroHash (genesisFields allZeroHash 0) 0
      ⟨0, Nat.le_refl 0, by decide⟩⟩

theorem lastHash_getD (chain : List AuditBlock) (hne : chain ≠ []) :
    lastHash chain = (chain.getD (chain.length - 1) default).hash := by
  unfold lastHash
  rw [List.getLast?_eq_getLast_of_ne_nil hne]
  have hlt : chain.length - 1 < chain.length := by
    cases chain with
    | nil => exact absurd rfl hne
    | cons a t => simp
  rw [List.getD_eq_getElem _ _ hlt, List.getLast_eq_getElem]

theorem reachable_spine (H : String → String) (key : Nat)
    (chain : List AuditBlock) (hr : Reachable H key chain) :
    chain ≠ [] ∧
    (∀ i, i < chain.length → (chain.getD i default).index = i) ∧
    (∀ i, i + 1 < chain.length →
      (chain.getD (i + 1) default).previous_hash
        = (chain.getD i default).hash) ∧
    (∀ b ∈ chain, b.merkle_root = build_merkle_root H b.leaf_hashes) := by
  induction hr with
  | genesis ts n hm =>
    refine ⟨by simp, ?_, ?_, ?_⟩
    · intro i hi
      simp only [List.length_cons, List.length_nil] at hi
      have hi0 : i = 0 := by omega
      subst hi0
      rfl
    · intro i hi
      simp only [List.length_cons, List.length_nil] at hi
      omega
    · intro b hb
      simp only [List.mem_singleton] at hb
      subst hb
      rfl
  | add_event chain evt ref actor p ts n hc hm ih =>
    obtain ⟨hne, hidx, hlink, hmerk⟩ := ih
    refine ⟨by simp, ?_, ?_, ?_⟩
    · intro i hi
      rw [List.length_append, List.length_cons, List.length_nil] at hi
      by_cases hlt : i < chain.length
      · rw [List.getD_append _ _ _ _ hlt]
        exact hidx i hlt
      · have hieq : i = chain.length := by omega
        subst hieq
        rw [List.getD_append_right _ _ _ _ (Nat.le_refl _), Nat.sub_self]
        rfl
    · intro i hi
      rw [List.length_append, List.length_cons, List.length_nil] at hi
      by_cases hlt : i + 1 < chain.length
      · rw [List.getD_append _ _ _ _ hlt,
          List.getD_append _ _ _ _ (by omega)]
        exact hlink i hlt
      · have hieq : i + 1 = chain.length := by omega
        have hilt : i < chain.length := by omega
        rw [hieq, List.getD_append_right _ _ _ _ (Nat.le_refl _),
          Nat.sub_self, List.getD_append _ _ _ _ hilt]
        have hph : (([eventBlock H key chain evt ref actor p ts n] :
              List AuditBlock).getD 0 default).previous_hash
            = lastHash chain := rfl
        rw [hph, lastHash_getD chain hne]
        have hlen1 : chain.length - 1 = i := by omega
        rw [hlen1]
    · intro b hb
      rw [List.mem_append] at hb
      cases hb with
      | inl hmem => exact hmerk b hmem
      | inr hmem =>
        simp only [List.mem_singleton] at hmem
        subst hmem
        rfl

/-- C2: every chain state reachable from genesis creation by a sequence of
`add_event` calls is non-empty, starts at index 0, links each non-genesis
block to its predecessor's hash with indices increasing by one, and every
block's `merkle_root` is `build_merkle_root` of its `leaf_hashes`. -/
theorem chain_invariants (H : String → String) (key : Nat)
    (chain : List AuditBlock) (hr : Reachable H key chain) :
    chain ≠ [] ∧
    (chain.headD default).index = 0 ∧
    (∀ i, i + 1 < chain.length →
      (chain.getD (i + 1) default).previous_hash
          = (chain.getD i default).hash ∧
      (chain.getD (i + 1) default).index
          = (chain.getD i default).index + 1) ∧
    (∀ b ∈ chain, b.merkle_root = build_merkle_root H b.leaf_hashes) := by
  obtain ⟨hne, hidx, hlink, hmerk⟩ := reachable_spine H key chain hr
  refine ⟨hne, ?_, ?_, hmerk⟩
  · have hlen : 0 < chain.length := by
      cases chain with
      | nil => exact absurd rfl hne
      | cons a t => simp
    have h0 := hidx 0 hlen
    cases chain with
    | nil => exact absurd rfl hne
    | cons a t => simpa using h0
  · intro i hi
    refine ⟨hlink i hi, ?_⟩
    rw [hidx (i + 1) hi, hidx i (by omega)]

/-- Witness for C2: a concrete reachable one-block chain (using the
`allZeroHash` digest so that sealing succeeds at nonce 0) satisfies the
invariant set. -/
theorem chain_invariants_witness :
    Reachable allZeroHash 0 [genesisBlock allZeroHash 0 0] ∧
    ([genesisBlock allZeroHash 0 0] : List AuditBlock) ≠ [] ∧
    (([genesisBlock allZeroHash 0 0] : List AuditBlock).headD default).index
      = 0 ∧
    (∀ i, i + 1 < ([genesisBlock allZeroHash 0 0] : List AuditBlock).length →
      (([genesisBlock allZeroHash 0 0] : List AuditBlock).getD (i + 1)
          default).previous_hash
        = (([genesisBlock allZeroHash 0 0] : List AuditBlock).getD i
          default).hash ∧
      (([genesisBlock allZeroHash 0 0] : List AuditBlock).getD (i + 1)
          default).index
        = (([genesisBlock allZeroHash 0 0] : List AuditBlock).getD i
          default).index + 1) ∧
    (∀ b ∈ ([genesisBlock allZeroHash 0 0] : List AuditBlock),
      b.merkle_root = build_merkle_root allZeroHash b.leaf_hashes) := by
  have hm : MineSpec allZeroHash (genesisFields allZeroHash 0) 0 0 :=
    ⟨Nat.le_refl 0, by decide, fun m h1 h2 => absurd h2 (by omega)⟩
  have hr : Reachable allZeroHash 0 [genesisBlock allZeroHash 0 0] :=
    Reachable.genesis 0 0 hm
  exact ⟨hr, chain_invariants allZeroHash 0 _ hr⟩

/-- The block `from_dict` reconstructs from `to_dict b` (when the stored
signature is valid hex and the stored hash is truthy): identical except
that `data_hash` is reset to `""`, `merkle_root` is recomputed from the
stored leaves, and the signature is normalised by the hex decode/encode
round trip. -/
def reloadedBlock (H : String → String) (b : AuditBlock) : AuditBlock :=
  { b with data_hash := "",
           merkle_root := build_merkle_root H b.leaf_hashes,
           signature := hexCanon b.signature }

theorem from_dict_to_dict (H : String → String) (b : AuditBlock)
    (hsig : isHexStr b.signature = true) (hhash : b.hash ≠ "") :
    from_dict H (AuditBlock.to_dict b) = some (reloadedBlock H b) := by
  unfold from_dict AuditBlock.to_dict fromHexRoundTrip
  simp only [Option.some_bind]
  rw [if_pos hsig]
  simp only [Option.some_bind]
  rw [if_neg hhash]
  rfl

/-- C7: persisting a chain of N blocks (`to_dict` each) and reloading it
(`from_dict` each, in order) succeeds and yields N blocks whose `hash`,
`previous_hash`, `merkle_root` and `index` sequences equal the originals.
The three hypotheses are facts about every block the code builds and
persists: its `merkle_root` is the root of its leaves (constructor
line 85, proved chain-wide in `chain_invariants`), its stored signature is
`bytes.hex()` output and hence valid hex (line 86), and its stored hash is
a non-empty digest (line 90), so reloading neither raises in
`bytes.fromhex` nor falls into the falsy-hash re-mine. -/
theorem persistence_round_trip (H : String → String)
    (chain : List AuditBlock)
    (hwf : ∀ b ∈ chain, b.merkle_root = build_merkle_root H b.leaf_hashes)
    (hsig : ∀ b ∈ chain, isHexStr b.signature = true)
    (hhash : ∀ b ∈ chain, b.hash ≠ "") :
    ∃ chain2,
      load_chain H (chain.map AuditBlock.to_dict) = some chain2 ∧
      chain2.length = chain.length ∧
      chain2.map AuditBlock.hash = chain.map AuditBlock.hash ∧
      chain2.map AuditBlock.previous_hash
        = chain.map AuditBlock.previous_hash ∧
      chain2.map AuditBlock.merkle_root = chain.map AuditBlock.merkle_root ∧
      chain2.map AuditBlock.index = chain.map AuditBlock.index := by
  induction chain with
  | nil => exact ⟨[], rfl, rfl, rfl, rfl, rfl, rfl⟩
  | cons b t ih =>
    obtain ⟨c2, hload, hlen, hh, hp, hmr, hix⟩ :=
      ih (fun x hx => hwf x (List.mem_cons_of_mem b hx))
        (fun x hx => hsig x (List.mem_cons_of_mem b hx))
        (fun x hx => hhash x (List.mem_cons_of_mem b hx))
    refine ⟨reloadedBlock H b :: c2, ?_, ?_, ?_, ?_, ?_, ?_⟩
    · show (from_dict H (AuditBlock.to_dict b)).bind
        (fun b2 => (load_chain H (t.map AuditBlock.to_dict)).map
          fun bs => b2 :: bs) = _
      rw [from_dict_to_dict H b (hsig b (List.mem_cons_self b t))
          (hhash b (List.mem_cons_self b t)),
        Option.some_bind, hload, Option.map_some']
    · simp [hlen]
    · simp only [List.map_cons]
      rw [hh]
      rfl
    · simp only [List.map_cons]
      rw [hp]
      rfl
    · simp only [List.map_cons]
      rw [hmr]
      have hb := hwf b (List.mem_cons_self b t)
      show build_merkle_root H b.leaf_hashes :: _ = b.merkle_root :: _
      rw [← hb]
    · simp only [List.map_cons]
      rw [hix]
      rfl

/-- A concrete well-formed block (its `merkle_root` is the root of its
leaves, its signature is valid hex — the empty string, as on the genesis
block — and its stored hash is non-empty) for the persistence round-trip
witness. -/
def sampleWellFormed : AuditBlock :=
  { index := 0, event_type := "GENESIS", reference_id := "SYSTEM",
    actor := "SYSTEM", data_hash := "0", leaf_hashes := ["0"],
    merkle_root := build_merkle_root freeHash ["0"], signature := "",
    timestamp := 0, previous_hash := "0", nonce := 0, hash := "0000g" }

/-- Witness for C7 on the concrete one-block chain. -/
theorem persistence_round_trip_witness :
    ∃ chain2,
      load_chain freeHash ([sampleWellFormed].map AuditBlock.to_dict)
        = some chain2 ∧
      chain2.length = ([sampleWellFormed] : List AuditBlock).length ∧
      chain2.map AuditBlock.hash
        = ([sampleWellFormed] : List AuditBlock).map AuditBlock.hash ∧
      chain2.map AuditBlock.previous_hash
        = ([sampleWellFormed] : List AuditBlock).map AuditBlock.previous_hash ∧
      chain2.map AuditBlock.merkle_root
        = ([sampleWellFormed] : List AuditBlock).map AuditBlock.merkle_root ∧
      chain2.map AuditBlock.index
        = ([sampleWellFormed] : List AuditBlock).map AuditBlock.index :=
  persistence_round_trip freeHash [sampleWellFormed]
    (fun b hb => by
      rw [List.mem_singleton] at hb
      subst hb
      rfl)
    (fun b hb => by
      rw [List.mem_singleton] at hb
      subst hb
      decide)
    (fun b hb => by
      rw [List.mem_singleton] at hb
      subst hb
      decide)

theorem from_dict_isSome (H : String → String) (d : BlockRecord)
    (hhash : d.hash ≠ some "") :
    (from_dict H d).isSome = (recComplete d && sigHexOk d) := by
  obtain ⟨i, e, r, a, lh, mr, s, t, p, nn, hs⟩ := d
  cases i with
  | none => rfl
  | some iv =>
  cases e with
  | none => rfl
  | some ev =>
  cases r with
  | none => rfl
  | some rv =>
  cases a with
  | none => rfl
  | some av =>
  cases lh with
  | none => rfl
  | some lhv =>
  cases s with
  | none => rfl
  | some sv =>
  cases t with
  | none =>
    by_cases hx : isHexStr sv = true
    · simp [from_dict, fromHexRoundTrip, recComplete, sigHexOk, hx]
    · simp [from_dict, fromHexRoundTrip, recComplete, sigHexOk, hx]
  | some tv =>
  cases p with
  | none =>
    by_cases hx : isHexStr sv = true
    · simp [from_dict, fromHexRoundTrip, recComplete, sigHexOk, hx]
    · simp [from_dict, fromHexRoundTrip, recComplete, sigHexOk, hx]
  | some pv =>
  cases nn with
  | none =>
    by_cases hx : isHexStr sv = true
    · simp [from_dict, fromHexRoundTrip, recComplete, sigHexOk, hx]
    · simp [from_dict, fromHexRoundTrip, recComplete, sigHexOk, hx]
  | some nv =>
  cases hs with
  | none =>
    by_cases hx : isHexStr sv = true
    · simp [from_dict, fromHexRoundTrip, recComplete, sigHexOk, hx]
    · simp [from_dict, fromHexRoundTrip, recComplete, sigHexOk, hx]
  | some hv =>
    have hvne : hv ≠ "" := fun hcon => hhash (by simp [hcon])
    by_cases hx : isHexStr sv = true
    · simp [from_dict, fromHexRoundTrip, recComplete, sigHexOk, hx, hvne]
    · simp [from_dict, fromHexRoundTrip, recComplete, sigHexOk, hx]

/-- A complete persisted record (every key present, valid-hex signature,
non-empty stored hash) with index 5. -/
def recBroken0 : BlockRecord :=
  { index := some 5, event_type := some "E", reference_id := some "r",
    actor := some "a", leaf_hashes := some ["x"], merkle_root := some "m",
    signature := some "ab", timestamp := some 0, previous_hash := some "P",
    nonce := some 0, hash := some "h0" }

/-- A complete persisted record (valid-hex signature, non-empty stored
hash) whose `previous_hash` does not match the stored hash of `recBroken0`
and
whose index (3) is non-monotonic after 5. -/
def recBroken1 : BlockRecord :=
  { index := some 3, event_type := some "E", reference_id := some "r",
    actor := some "a", leaf_hashes := some ["y"], merkle_root := some "m",
    signature := some "ab", timestamp := some 0, previous_hash := some "zzz",
    nonce := some 0, hash := some "h1" }

/-- C6 counterexample: a persisted sequence of records the source does
load (all keys present, hex-decodable signatures, truthy stored hashes)
but with broken `previous_hash` linkage and non-monotonic indices loads
without any error — `_load_chain` performs no structural validation, so
startup constructs a Ledger holding the corrupt chain instead of failing
fast. -/
theorem load_chain_accepts_broken_linkage :
    ((load_chain freeHash [recBroken0, recBroken1]).map fun c =>
        ((c.getD 0 default).hash, (c.getD 1 default).previous_hash,
          (c.getD 0 default).index, (c.getD 1 default).index))
      = some ("h0", "zzz", 5, 3) ∧
    ("zzz" : String) ≠ "h0" ∧ (3 : Nat) ≠ 5 + 1 :=
  ⟨by decide, by decide, by decide⟩

/-- C6 (amended): for persisted sequences whose records carry non-empty
stored hashes (an empty one would re-enter the unbounded mining search,
line 90, rather than load), startup fails on reload exactly when some
record is missing one of the ten keys `from_dict` reads (Python
`KeyError`) or carries a signature string `bytes.fromhex` rejects
(uncaught `ValueError`); structural corruption — broken `previous_hash`
linkage, non-monotonic indices — is never checked, and such sequences
load successfully. -/
theorem load_chain_isSome_iff (H : String → String) :
    ∀ records : List BlockRecord,
      (∀ r ∈ records, r.hash ≠ some "") →
      ((load_chain H records).isSome = true
        ↔ ∀ r ∈ records, (recComplete r && sigHexOk r) = true) := by
  intro records
  induction records with
  | nil =>
    intro _
    simp [load_chain]
  | cons r rest ih =>
    intro hhash
    have hr0 : r.hash ≠ some "" := hhash r (List.mem_cons_self r rest)
    have ih2 := ih fun x hx => hhash x (List.mem_cons_of_mem r hx)
    simp only [load_chain]
    constructor
    · intro h
      cases hfd : from_dict H r with
      | none => rw [hfd] at h; simp at h
      | some b =>
        rw [hfd] at h
        cases hlc : load_chain H rest with
        | none => rw [hlc] at h; simp at h
        | some bs =>
          intro x hx
          rcases List.mem_cons.mp hx with rfl | hmem
          · have hcs := from_dict_isSome H x hr0
            rw [hfd] at hcs
            exact hcs.symm
          · exact ih2.mp (by rw [hlc]; rfl) x hmem
    · intro hall
      have h1 : (recComplete r && sigHexOk r) = true :=
        hall r (List.mem_cons_self r rest)
      have h2 : (load_chain H rest).isSome = true :=
        ih2.mpr fun x hx => hall x (List.mem_cons_of_mem r hx)
      cases hfd : from_dict H r with
      | none =>
        have hcs := from_dict_isSome H r hr0
        rw [hfd, h1] at hcs
        simp at hcs
      | some b =>
        cases hlc : load_chain H rest with
        | none => rw [hlc] at h2; simp at h2
        | some bs => simp [hfd, hlc]

/-- A record with the `index` key missing (all other keys well formed). -/
def recMissing : BlockRecord :=
  { index := none, event_type := some "E", reference_id := some "r",
    actor := some "a", leaf_hashes := some ["x"], merkle_root := some "m",
    signature := some "ab", timestamp := some 0, previous_hash := some "P",
    nonce := some 0, hash := some "h0" }

/-- Witness for the amended C6 theorem: with the incomplete `recMissing`
record in the sequence (non-empty stored hash, so the hypothesis holds)
the load cannot succeed, hence the right-hand side is refuted. -/
theorem load_chain_isSome_iff_witness :
    ¬ ∀ r ∈ ([recMissing] : List BlockRecord),
        (recComplete r && sigHexOk r) = true :=
  fun hall =>
    absurd ((load_chain_isSome_iff freeHash [recMissing] (by decide)).mpr
        hall)
      (by decide)
